import Mathlib

/-!
Shallow embedding of `pstream/_async/functors.py` (PyStream).

Sources are modelled as Lean lists consumed left to right; a suspending
(async) source carries the same elements as its synchronous counterpart, so
the sync and async variants of an operator become Lean functions over the
same list and the dispatch-equivalence claims become equalities of those
functions.  Python exceptions become `Except`; machine-level concerns do not
arise (elements are opaque).  The `await` of a suspending user function does
not change the data flow, so a suspending function is embedded as the same
Lean function `α → β` as a synchronous one; what remains to verify is that
the four per-operator implementations compute the same sequence.
-/

namespace PStream

/-- Error taxonomy of the spec.  In the code, `typeClassification` is the
bare `TypeError` raised by `coerce`'s final branch. -/
inductive PsError where
  | typeClassification
  | invalidArgument
  | comparison
  | dispatch
  deriving DecidableEq, Repr

/-- A Python value as seen by the coercion layer: only its runtime
capabilities matter (membership in the four abc classes tested by
`coerce` / `is_async_stream`). -/
structure PyObj where
  asyncIterator : Bool
  asyncIterable : Bool
  iterator : Bool
  iterable : Bool
  deriving DecidableEq, Repr

/-- The canonical shape a coerced value ends with. -/
inductive Cursor where
  | syncCursor
  | asyncCursor
  deriving DecidableEq, Repr

/-- `is_async_stream(stream)` from the source: an `AsyncIterator` or
`AsyncIterable` instance. -/
def is_async_stream (v : PyObj) : Bool :=
  v.asyncIterator || v.asyncIterable

/-- `coerce(stream)` from the source: async-iterator first, then
async-iterable (via `__aiter__`), then iterator, then iterable (via
`__iter__`), else `TypeError`.  `__aiter__` yields an async cursor and
`__iter__` a sync cursor, so we record only the resulting shape. -/
def coerce (v : PyObj) : Except PsError Cursor :=
  if v.asyncIterator then Except.ok Cursor.asyncCursor
  else if v.asyncIterable then Except.ok Cursor.asyncCursor
  else if v.iterator then Except.ok Cursor.syncCursor
  else if v.iterable then Except.ok Cursor.syncCursor
  else Except.error PsError.typeClassification

/-- Which of the two implementations a shape-only dispatcher picks. -/
inductive Impl2 where
  | sImpl
  | aImpl
  deriving DecidableEq, Repr

/-- `factory(s, a)`'s inner dispatcher: coerces the source, then picks the
async implementation iff the coerced cursor is async. -/
def factory_inner (v : PyObj) : Except PsError Impl2 := do
  let c ← coerce v
  match c with
  | Cursor.asyncCursor => pure Impl2.aImpl
  | Cursor.syncCursor => pure Impl2.sImpl

/-- The four entries of a cross-product dispatch table. -/
inductive Impl4 where
  | ss
  | sa
  | asy
  | aa
  deriving DecidableEq, Repr

/-- `higher_order_factory(ss, sa, _as, aa)`'s inner dispatcher: it does NOT
call `coerce`; it computes `iscoroutinefunction(f)` and
`is_async_stream(stream)` and branches on the pair.  The trailing `else
raise TypeError` is unreachable (two booleans have four cases). -/
def higher_order_inner (fIsAsync : Bool) (v : PyObj) : Impl4 :=
  let sIsAsync := is_async_stream v
  if !fIsAsync && !sIsAsync then Impl4.ss
  else if !fIsAsync && sIsAsync then Impl4.sa
  else if fIsAsync && !sIsAsync then Impl4.asy
  else Impl4.aa

end PStream

namespace PStream

/-! ### MAP -/

/-- `ss_map` is the builtin `map(f, stream)`: lazily applies `f` to each
pulled element. -/
def ss_map (f : α → β) : List α → List β
  | [] => []
  | x :: xs => f x :: ss_map f xs

/-- `sa_map`: `async for x in stream: yield f(x)`. -/
def sa_map (f : α → β) : List α → List β
  | [] => []
  | x :: xs => f x :: sa_map f xs

/-- `as_map`: `for x in stream: yield await f(x)`. -/
def as_map (f : α → β) : List α → List β
  | [] => []
  | x :: xs => f x :: as_map f xs

/-- `aa_map`: `async for x in stream: yield await f(x)`. -/
def aa_map (f : α → β) : List α → List β
  | [] => []
  | x :: xs => f x :: aa_map f xs

/-! ### FILTER -/

/-- `ss_filter` is the builtin `filter(f, stream)`. -/
def ss_filter (f : α → Bool) : List α → List α
  | [] => []
  | x :: xs => if f x then x :: ss_filter f xs else ss_filter f xs

/-- `sa_filter`: `async for x in stream: if f(x): yield x`. -/
def sa_filter (f : α → Bool) : List α → List α
  | [] => []
  | x :: xs => if f x then x :: sa_filter f xs else sa_filter f xs

/-- `as_filter`: `for x in stream: if await f(x): yield x`. -/
def as_filter (f : α → Bool) : List α → List α
  | [] => []
  | x :: xs => if f x then x :: as_filter f xs else as_filter f xs

/-- `aa_filter`: `async for x in stream: if await f(x): yield x`. -/
def aa_filter (f : α → Bool) : List α → List α
  | [] => []
  | x :: xs => if f x then x :: aa_filter f xs else aa_filter f xs

/-! ### FILTER_FALSE -/

/-- `ss_filter_false(f, stream) = ss_filter(lambda x: not f(x), stream)`. -/
def ss_filter_false (f : α → Bool) (l : List α) : List α :=
  ss_filter (fun x => !f x) l

/-- `sa_filter_false`: `async for x in stream: if not f(x): yield x`. -/
def sa_filter_false (f : α → Bool) : List α → List α
  | [] => []
  | x :: xs => if !f x then x :: sa_filter_false f xs else sa_filter_false f xs

/-- `as_filter_false`: `for x in stream: if not await f(x): yield x`. -/
def as_filter_false (f : α → Bool) : List α → List α
  | [] => []
  | x :: xs => if !f x then x :: as_filter_false f xs else as_filter_false f xs

/-- `aa_filter_false`: `async for x in stream: if not await f(x): yield x`. -/
def aa_filter_false (f : α → Bool) : List α → List α
  | [] => []
  | x :: xs => if !f x then x :: aa_filter_false f xs else aa_filter_false f xs

/-! ### INSPECT

`inspect` calls `f(x)` for its side effect and yields `x` unchanged.  The
embedding returns the pair (trace of arguments `f` is applied to, in call
order; yielded elements). -/

/-- `ss_inspect`: `for x in stream: f(x); yield x`. -/
def ss_inspect : List α → List α × List α
  | [] => ([], [])
  | x :: xs =>
    let r := ss_inspect xs
    (x :: r.1, x :: r.2)

/-- `sa_inspect`: `async for x in stream: f(x); yield x`. -/
def sa_inspect : List α → List α × List α
  | [] => ([], [])
  | x :: xs =>
    let r := sa_inspect xs
    (x :: r.1, x :: r.2)

/-- `as_inspect`: `for x in stream: await f(x); yield x`. -/
def as_inspect : List α → List α × List α
  | [] => ([], [])
  | x :: xs =>
    let r := as_inspect xs
    (x :: r.1, x :: r.2)

/-- `aa_inspect`: `async for x in stream: await f(x); yield x`. -/
def aa_inspect : List α → List α × List α
  | [] => ([], [])
  | x :: xs =>
    let r := aa_inspect xs
    (x :: r.1, x :: r.2)

/-! ### FOR_EACH

`for_each` calls `f(x)` and yields a bare `None` per element.  The embedding
returns (trace of arguments, yielded `None`s as `Unit`s). -/

/-- `ss_for_each`: `for x in stream: f(x); yield`. -/
def ss_for_each : List α → List α × List Unit
  | [] => ([], [])
  | x :: xs =>
    let r := ss_for_each xs
    (x :: r.1, () :: r.2)

/-- `sa_for_each`: `async for x in stream: f(x); yield`. -/
def sa_for_each : List α → List α × List Unit
  | [] => ([], [])
  | x :: xs =>
    let r := sa_for_each xs
    (x :: r.1, () :: r.2)

/-- `as_for_each`: `for x in stream: await f(x); yield`. -/
def as_for_each : List α → List α × List Unit
  | [] => ([], [])
  | x :: xs =>
    let r := as_for_each xs
    (x :: r.1, () :: r.2)

/-- `aa_for_each`: `async for x in stream: await f(x); yield`. -/
def aa_for_each : List α → List α × List Unit
  | [] => ([], [])
  | x :: xs =>
    let r := aa_for_each xs
    (x :: r.1, () :: r.2)

/-! ### SKIP_WHILE -/

/-- `ss_skip_while` is `itertools.dropwhile(f, stream)`: drop elements while
the predicate holds; from the first failing element on, yield everything
without consulting the predicate again. -/
def ss_skip_while (f : α → Bool) : List α → List α
  | [] => []
  | x :: xs => if f x then ss_skip_while f xs else x :: xs

/-- `sa_skip_while`: a first `async for` loop that discards while `f(x)` and
on the first failing `x` yields it and breaks; a second loop yields the rest
of the same cursor. -/
def sa_skip_while (f : α → Bool) : List α → List α
  | [] => []
  | x :: xs => if f x then sa_skip_while f xs else x :: xs

/-- `as_skip_while`: same two-loop structure with `await f(x)`. -/
def as_skip_while (f : α → Bool) : List α → List α
  | [] => []
  | x :: xs => if f x then as_skip_while f xs else x :: xs

/-- `aa_skip_while`: same two-loop structure, async source and function. -/
def aa_skip_while (f : α → Bool) : List α → List α
  | [] => []
  | x :: xs => if f x then aa_skip_while f xs else x :: xs

/-- The arguments on which `skip_while` evaluates its predicate, in call
order: every element of the leading satisfying run, plus the first failing
element when one exists; nothing afterwards. -/
def skip_while_evals (f : α → Bool) : List α → List α
  | [] => []
  | x :: xs => if f x then x :: skip_while_evals f xs else [x]

/-! ### TAKE_WHILE -/

/-- `ss_take_while` is `itertools.takewhile(f, stream)`. -/
def ss_take_while (f : α → Bool) : List α → List α
  | [] => []
  | x :: xs => if f x then x :: ss_take_while f xs else []

/-- `sa_take_while`: `async for x in stream: if f(x): yield x else: break`. -/
def sa_take_while (f : α → Bool) : List α → List α
  | [] => []
  | x :: xs => if f x then x :: sa_take_while f xs else []

/-- `as_take_while`: sync source, `await f(x)`. -/
def as_take_while (f : α → Bool) : List α → List α
  | [] => []
  | x :: xs => if f x then x :: as_take_while f xs else []

/-- `aa_take_while`: async source, `await f(x)`. -/
def aa_take_while (f : α → Bool) : List α → List α
  | [] => []
  | x :: xs => if f x then x :: aa_take_while f xs else []

/-! ### GROUP_BY

`defaultdict(list)` with Python-3.7 dict semantics: keys keep insertion
(first-seen) order; `groups[k].append(x)` appends to the bucket of `k`,
creating an empty bucket at the end of the key order when `k` is new. -/

/-- `groups[f(x)].append(x)` on an insertion-ordered dict represented as an
association list. -/
def group_insert [DecidableEq κ] (k : κ) (x : α) : List (κ × List α) → List (κ × List α)
  | [] => [(k, [x])]
  | (k', g) :: rest =>
    if k = k' then (k', g ++ [x]) :: rest else (k', g) :: group_insert k x rest

/-- The drain loop shared verbatim (modulo `await`) by the four `group_by`
bodies: `for x in stream: groups[f(x)].append(x)`. -/
def group_by_loop [DecidableEq κ] (f : α → κ) : List α → List (κ × List α) → List (κ × List α)
  | [], groups => groups
  | x :: xs, groups => group_by_loop f xs (group_insert (f x) x groups)

/-- `ss_group_by`: drain into `defaultdict(list)`, then
`for group in groups.values(): yield group`. -/
def ss_group_by [DecidableEq κ] (f : α → κ) (l : List α) : List (List α) :=
  (group_by_loop f l []).map Prod.snd

/-- `sa_group_by`: same body over an async source. -/
def sa_group_by [DecidableEq κ] (f : α → κ) (l : List α) : List (List α) :=
  (group_by_loop f l []).map Prod.snd

/-- `as_group_by`: same body with `await f(x)`. -/
def as_group_by [DecidableEq κ] (f : α → κ) (l : List α) : List (List α) :=
  (group_by_loop f l []).map Prod.snd

/-- `aa_group_by`: same body, async source and function. -/
def aa_group_by [DecidableEq κ] (f : α → κ) (l : List α) : List (List α) :=
  (group_by_loop f l []).map Prod.snd

/-! ### DISTINCT_WITH

The `seen` set is modelled as the list of keys added so far (only membership
is consulted). -/

/-- `ss_distinct_with` body: `h = f(x); if h in seen: continue; seen.add(h);
yield x`. -/
def ss_distinct_with [DecidableEq κ] (f : α → κ) : List α → List κ → List α
  | [], _ => []
  | x :: xs, seen =>
    if f x ∈ seen then ss_distinct_with f xs seen
    else x :: ss_distinct_with f xs (f x :: seen)

/-- `sa_distinct_with`: same body over an async source. -/
def sa_distinct_with [DecidableEq κ] (f : α → κ) : List α → List κ → List α
  | [], _ => []
  | x :: xs, seen =>
    if f x ∈ seen then sa_distinct_with f xs seen
    else x :: sa_distinct_with f xs (f x :: seen)

/-- `as_distinct_with`: same body with `h = await f(x)`. -/
def as_distinct_with [DecidableEq κ] (f : α → κ) : List α → List κ → List α
  | [], _ => []
  | x :: xs, seen =>
    if f x ∈ seen then as_distinct_with f xs seen
    else x :: as_distinct_with f xs (f x :: seen)

/-- `aa_distinct_with`: same body, async source and function. -/
def aa_distinct_with [DecidableEq κ] (f : α → κ) : List α → List κ → List α
  | [], _ => []
  | x :: xs, seen =>
    if f x ∈ seen then aa_distinct_with f xs seen
    else x :: aa_distinct_with f xs (f x :: seen)

/-! ### SKIP / TAKE -/

/-- `s_skip(stream, limit)`: `limit` times pull `next(stream)` discarding
the element, breaking on exhaustion; then yield the rest of the cursor. -/
def s_skip : List α → Nat → List α
  | l, 0 => l
  | [], _ + 1 => []
  | _ :: xs, n + 1 => s_skip xs n

/-- `s_take(stream, limit)`: `limit` times yield `next(stream)`, breaking
on exhaustion. -/
def s_take : List α → Nat → List α
  | _, 0 => []
  | [], _ + 1 => []
  | x :: xs, n + 1 => x :: s_take xs n

/-! ### POOL -/

/-- The `for` loop of `s_pool`/`a_pool` with running buffer `p`:
append `x`; when the buffer reaches `size`, yield and reset it; after the
loop, yield the non-empty remainder. -/
def pool_loop (size : Nat) : List α → List α → List (List α)
  | [], p => if p.length ≠ 0 then [p] else []
  | x :: xs, p =>
    let p2 := p ++ [x]
    if p2.length = size then p2 :: pool_loop size xs [] else pool_loop size xs p2

/-- `s_pool(stream, size)` (and `a_pool`, identical modulo `async for`). -/
def s_pool (l : List α) (size : Nat) : List (List α) :=
  pool_loop size l []

/-! ### STEP_BY -/

/-- The counting loop of `a_step_by`: yield `x` when `c % step == 0`.
`s_step_by` is `itertools.islice(stream, 0, None, step)`, which yields the
same indices `0, step, 2*step, ...` for a positive `step`. -/
def step_by_loop (step : Nat) : List α → Nat → List α
  | [], _ => []
  | x :: xs, c =>
    if c % step = 0 then x :: step_by_loop step xs (c + 1)
    else step_by_loop step xs (c + 1)

/-- `a_step_by(stream, step)` starting its counter at 0. -/
def a_step_by (l : List α) (step : Nat) : List α :=
  step_by_loop step l 0

/-! ### ZIP -/

/-- One round of `zip`'s `while True` body: pull one element from each
cursor in argument order, building the tuple.  When a cursor is exhausted
its `next`/`__anext__` raises, aborting the round: earlier cursors have
already lost one element, later cursors are untouched, and the partial
tuple is discarded. -/
def zip_round : List (List α) → Option (List α) × List (List α)
  | [] => (some [], [])
  | [] :: cs => (none, [] :: cs)
  | (x :: rest) :: cs =>
    let r := zip_round cs
    (r.1.map (fun t => x :: t), rest :: r.2)

/-- `zip`'s `while True` loop, with enough fuel to reach the exhaustion
round.  Returns (tuples yielded, final cursor states). -/
def zip_run (fuel : Nat) (cs : List (List α)) : List (List α) × List (List α) :=
  match fuel with
  | 0 => ([], cs)
  | fuel + 1 =>
    match (zip_round cs).1 with
    | none => ([], (zip_round cs).2)
    | some t =>
      let r := zip_run fuel (zip_round cs).2
      (t :: r.1, r.2)

/-- The minimum of the cursor lengths of a non-empty cursor list (0 when
the list is empty, a case on which the Python loop never terminates). -/
def min_len : List (List α) → Nat
  | [] => 0
  | [c] => c.length
  | c :: cs => min c.length (min_len cs)

/-- The tuples yielded by `zip(*streams)` on finite sources: run the loop
with fuel for all successful rounds plus the final failing round. -/
def zip_out (cs : List (List α)) : List (List α) :=
  (zip_run (min_len cs + 1) cs).1

/-- The cursor states `zip` leaves behind once it stops. -/
def zip_rest (cs : List (List α)) : List (List α) :=
  (zip_run (min_len cs + 1) cs).2

/-! ### SORT

`s_sort = sorted` and `a_sort` drains into a list comprehension and calls
`sorted` on it.  `sorted` first builds a list from the whole iterable, then
sorts it with `<` comparisons.  Comparability of elements may be partial:
the comparison callback returns `none` where Python's `x < y` raises
`TypeError` (the spec's `ComparisonError`).  The comparison pattern models
CPython's run-building/insertion behavior: each new element is compared
against the current sorted prefix starting from its largest element, so an
already-ascending input incurs adjacent-pair comparisons only. -/

/-- Insert `x` into a descending sorted prefix, comparing `x < y` against
the largest elements first and stopping at the first `y` with `¬(x < y)`;
an incomparable pair raises `ComparisonError`. -/
def insert_desc (c : α → α → Option Bool) (x : α) : List (α) → Except PsError (List α)
  | [] => Except.ok [x]
  | y :: ys =>
    match c x y with
    | none => Except.error PsError.comparison
    | some true => do
      let r ← insert_desc c x ys
      pure (y :: r)
    | some false => Except.ok (x :: y :: ys)

/-- The sorting phase of `sorted`: fold the drained list into a descending
prefix, then reverse into ascending order. -/
def sort_phase (c : α → α → Option Bool) : List α → List α → Except PsError (List α)
  | [], acc => Except.ok acc.reverse
  | x :: xs, acc => do
    let acc2 ← insert_desc c x acc
    sort_phase c xs acc2

/-- The drain phase (`list(iterable)` / `[x async for x in stream]`):
returns (drained elements, exhausted cursor). -/
def drain (l : List α) : List α × List α :=
  (l.foldl (fun acc x => acc ++ [x]) [], [])

/-- `a_sort(stream)` (and `s_sort = sorted`): drain fully, then sort.
Returns (cursor state left after the drain phase, sort outcome). -/
def a_sort (c : α → α → Option Bool) (l : List α) : List α × Except PsError (List α) :=
  let d := drain l
  (d.2, sort_phase c d.1 [])

/-- All elements of `l` are pairwise comparable under `c`. -/
def mutually_comparable (c : α → α → Option Bool) (l : List α) : Prop :=
  ∀ x ∈ l, ∀ y ∈ l, (c x y).isSome

/-- The natural strict order of `Nat` as a total comparison callback. -/
def nat_cmp (a b : Nat) : Option Bool :=
  some (decide (a < b))

/-- A partial comparison: `0` and `2` are incomparable (their `<` raises),
every other pair compares as on `Nat`.  It models three Python objects of a
class whose `__lt__` raises `TypeError` for exactly one pair. -/
def cex_cmp (a b : Nat) : Option Bool :=
  if (a = 0 ∧ b = 2) ∨ (a = 2 ∧ b = 0) then none else some (decide (a < b))

/-! ### Argument validation (stream builder)

The `InvalidArgument` checks live in the fluent stream builder
(`pstream` stream classes), which is not under src/: the functors in
src/ are reached only through it. -/

/-- Modelled from the spec: the stream builder's `pool(size)` validation —
"size must be a positive integer (`InvalidArgument` otherwise)", raised
before any element is pulled; on a valid size it defers to `s_pool`. -/
def pool_checked (l : List α) (size : Int) : Except PsError (List (List α)) :=
  if size ≤ 0 then Except.error PsError.invalidArgument
  else Except.ok (s_pool l size.toNat)

/-- Modelled from the spec: the stream builder's `step_by(step)` validation —
"n must be a positive integer (`InvalidArgument` otherwise)". -/
def step_by_checked (l : List α) (step : Int) : Except PsError (List α) :=
  if step ≤ 0 then Except.error PsError.invalidArgument
  else Except.ok (a_step_by l step.toNat)

/-- Modelled from the spec: the stream builder's `skip(n)` validation —
"n must be a non-negative integer" (spec 4.3), so a negative count is an
`InvalidArgument` and zero is accepted. -/
def skip_checked (l : List α) (n : Int) : Except PsError (List α) :=
  if n < 0 then Except.error PsError.invalidArgument
  else Except.ok (s_skip l n.toNat)

/-- Modelled from the spec: the stream builder's `take(n)` validation —
"n must be a non-negative integer" (spec 4.3), so a negative count is an
`InvalidArgument` and zero is accepted. -/
def take_checked (l : List α) (n : Int) : Except PsError (List α) :=
  if n < 0 then Except.error PsError.invalidArgument
  else Except.ok (s_take l n.toNat)

/-! ### Invocation-time behavior of dispatched operators (for C4) -/

/-- Invocation of the sync-sync `map` implementation: `builtins.map(f, x)`
calls `iter(x)` eagerly and raises `TypeError` when `x` is not iterable. -/
def ss_map_invoke (v : PyObj) : Except PsError Unit :=
  if v.iterator || v.iterable then Except.ok () else Except.error PsError.typeClassification

/-- Invoking `map` through `higher_order_factory`: the dispatcher itself
never raises; only the eager sync-sync builtin can fail at invocation
time (the three async variants are async generator functions, whose bodies
run only on first demand). -/
def map_invoke (fIsAsync : Bool) (v : PyObj) : Except PsError Unit :=
  match higher_order_inner fIsAsync v with
  | Impl4.ss => ss_map_invoke v
  | _ => Except.ok ()

/-- Invoking `group_by` through `higher_order_factory`: all four
implementations are (async) generator functions, so invocation only
creates a generator and never touches the source. -/
def group_by_invoke (fIsAsync : Bool) (v : PyObj) : Except PsError Unit :=
  match higher_order_inner fIsAsync v with
  | _ => Except.ok ()

/-- First demand on the generator returned by `ss_group_by`: its
`for x in stream` header calls `iter(stream)`, raising `TypeError` for a
value with neither pull capability. -/
def ss_group_by_first_demand (v : PyObj) : Except PsError Unit :=
  if v.iterator || v.iterable then Except.ok () else Except.error PsError.typeClassification

/-! ### Specification-side helpers for group_by -/

/-- The keys of an insertion-ordered dict. -/
def dict_keys (gs : List (κ × List α)) : List κ :=
  gs.map Prod.fst

/-- Bucket lookup in an insertion-ordered dict (empty when absent). -/
def find_group [DecidableEq κ] (k : κ) : List (κ × List α) → List α
  | [] => []
  | (k2, g) :: rest => if k = k2 then g else find_group k rest

/-- The subsequence of `ks` keeping the first occurrence of each key not
already in `seen`: the insertion order of a Python dict's keys. -/
def first_seen [DecidableEq κ] : List κ → List κ → List κ
  | [], _ => []
  | k :: ks, seen =>
    if k ∈ seen then first_seen ks seen else k :: first_seen ks (k :: seen)

/-- Observable events of a `group_by` generator: pulling an element from
the source, or yielding a finished bucket. -/
inductive GEvent (α : Type u) where
  | pull (x : α)
  | yieldB (g : List α)
  deriving DecidableEq, Repr

/-- The event trace of the `group_by` generator body: the drain loop pulls
each element (updating the dict); only once the loop falls through does the
second loop yield the buckets. -/
def group_by_run [DecidableEq κ] (f : α → κ) : List α → List (κ × List α) → List (GEvent α)
  | [], gs => gs.map (fun g => GEvent.yieldB g.2)
  | x :: xs, gs => GEvent.pull x :: group_by_run f xs (group_insert (f x) x gs)

/-! ## Helper lemmas -/

theorem map_variants (f : α → β) (l : List α) :
    sa_map f l = ss_map f l ∧ as_map f l = ss_map f l ∧ aa_map f l = ss_map f l := by
  induction l with
  | nil => exact ⟨rfl, rfl, rfl⟩
  | cons x xs ih =>
    simp only [ss_map, sa_map, as_map, aa_map, ih.1, ih.2.1, ih.2.2, and_self]

theorem filter_variants (p : α → Bool) (l : List α) :
    sa_filter p l = ss_filter p l ∧ as_filter p l = ss_filter p l ∧
      aa_filter p l = ss_filter p l := by
  induction l with
  | nil => exact ⟨rfl, rfl, rfl⟩
  | cons x xs ih =>
    simp only [ss_filter, sa_filter, as_filter, aa_filter, ih.1, ih.2.1, ih.2.2, and_self]

theorem filter_false_variants (p : α → Bool) (l : List α) :
    sa_filter_false p l = ss_filter_false p l ∧ as_filter_false p l = ss_filter_false p l ∧
      aa_filter_false p l = ss_filter_false p l := by
  induction l with
  | nil => exact ⟨rfl, rfl, rfl⟩
  | cons x xs ih =>
    simp only [ss_filter_false, ss_filter, sa_filter_false, as_filter_false, aa_filter_false,
      ih.1, ih.2.1, ih.2.2] at *
    by_cases h : p x <;> simp [h, ih.1, ih.2.1, ih.2.2]

theorem inspect_variants (l : List α) :
    sa_inspect l = ss_inspect l ∧ as_inspect l = ss_inspect l ∧
      aa_inspect l = ss_inspect l := by
  induction l with
  | nil => exact ⟨rfl, rfl, rfl⟩
  | cons x xs ih =>
    simp only [ss_inspect, sa_inspect, as_inspect, aa_inspect, ih.1, ih.2.1, ih.2.2, and_self]

theorem for_each_variants (l : List α) :
    sa_for_each l = ss_for_each l ∧ as_for_each l = ss_for_each l ∧
      aa_for_each l = ss_for_each l := by
  induction l with
  | nil => exact ⟨rfl, rfl, rfl⟩
  | cons x xs ih =>
    simp only [ss_for_each, sa_for_each, as_for_each, aa_for_each, ih.1, ih.2.1, ih.2.2,
      and_self]

theorem skip_while_variants (p : α → Bool) (l : List α) :
    sa_skip_while p l = ss_skip_while p l ∧ as_skip_while p l = ss_skip_while p l ∧
      aa_skip_while p l = ss_skip_while p l := by
  induction l with
  | nil => exact ⟨rfl, rfl, rfl⟩
  | cons x xs ih =>
    simp only [ss_skip_while, sa_skip_while, as_skip_while, aa_skip_while]
    by_cases h : p x <;> simp [h, ih.1, ih.2.1, ih.2.2]

theorem take_while_variants (p : α → Bool) (l : List α) :
    sa_take_while p l = ss_take_while p l ∧ as_take_while p l = ss_take_while p l ∧
      aa_take_while p l = ss_take_while p l := by
  induction l with
  | nil => exact ⟨rfl, rfl, rfl⟩
  | cons x xs ih =>
    simp only [ss_take_while, sa_take_while, as_take_while, aa_take_while]
    by_cases h : p x <;> simp [h, ih.1, ih.2.1, ih.2.2]

theorem first_seen_congr [DecidableEq κ] (ks : List κ) {s1 s2 : List κ}
    (h : ∀ k, k ∈ s1 ↔ k ∈ s2) : first_seen ks s1 = first_seen ks s2 := by
  induction ks generalizing s1 s2 with
  | nil => rfl
  | cons k ks ih =>
    simp only [first_seen]
    by_cases hk : k ∈ s1
    · rw [if_pos hk, if_pos ((h k).mp hk), ih h]
    · rw [if_neg hk, if_neg (fun hc => hk ((h k).mpr hc))]
      have h2 : ∀ k2, k2 ∈ k :: s1 ↔ k2 ∈ k :: s2 := by
        intro k2; simp only [List.mem_cons, h k2]
      rw [ih h2]

theorem first_seen_mem [DecidableEq κ] (ks : List κ) (seen : List κ) (k : κ) :
    k ∈ first_seen ks seen ↔ k ∈ ks ∧ k ∉ seen := by
  induction ks generalizing seen with
  | nil => simp [first_seen]
  | cons k2 ks ih =>
    simp only [first_seen]
    by_cases hk : k2 ∈ seen
    · rw [if_pos hk, ih seen]
      constructor
      · exact fun h => ⟨List.mem_cons_of_mem _ h.1, h.2⟩
      · rintro ⟨h1, h2⟩
        rcases List.mem_cons.mp h1 with rfl | h1
        · exact absurd hk h2
        · exact ⟨h1, h2⟩
    · rw [if_neg hk]
      constructor
      · intro h
        rcases List.mem_cons.mp h with rfl | h
        · exact ⟨List.mem_cons_self _ _, hk⟩
        · have h3 := (ih (k2 :: seen)).mp h
          exact ⟨List.mem_cons_of_mem _ h3.1,
            fun hc => h3.2 (List.mem_cons_of_mem _ hc)⟩
      · rintro ⟨h1, h2⟩
        rcases List.mem_cons.mp h1 with rfl | h1
        · exact List.mem_cons_self _ _
        · by_cases hkk : k = k2
          · subst hkk; exact List.mem_cons_self _ _
          · refine List.mem_cons_of_mem _ ((ih (k2 :: seen)).mpr ⟨h1, fun hc => ?_⟩)
            rcases List.mem_cons.mp hc with h3 | h3
            · exact hkk h3
            · exact h2 h3

theorem first_seen_nodup [DecidableEq κ] (ks : List κ) (seen : List κ) :
    (first_seen ks seen).Nodup := by
  induction ks generalizing seen with
  | nil => exact List.nodup_nil
  | cons k ks ih =>
    simp only [first_seen]
    by_cases hk : k ∈ seen
    · rw [if_pos hk]; exact ih seen
    · rw [if_neg hk]
      refine List.nodup_cons.mpr ⟨fun hc => ?_, ih (k :: seen)⟩
      exact ((first_seen_mem ks (k :: seen) k).mp hc).2 (List.mem_cons_self k seen)

theorem dict_keys_group_insert [DecidableEq κ] (k : κ) (x : α) (gs : List (κ × List α)) :
    dict_keys (group_insert k x gs) =
      if k ∈ dict_keys gs then dict_keys gs else dict_keys gs ++ [k] := by
  induction gs with
  | nil => simp [dict_keys, group_insert]
  | cons e rest ih =>
    obtain ⟨k2, g⟩ := e
    simp only [group_insert, dict_keys, List.map_cons, List.mem_cons]
    by_cases hk : k = k2
    · simp [hk]
    · rw [if_neg hk]
      simp only [List.map_cons, dict_keys] at ih ⊢
      by_cases hmem : k ∈ List.map Prod.fst rest
      · simp [ih, hmem, hk]
      · simp [ih, hmem, hk]

theorem find_group_group_insert_self [DecidableEq κ] (k : κ) (x : α)
    (gs : List (κ × List α)) :
    find_group k (group_insert k x gs) = find_group k gs ++ [x] := by
  induction gs with
  | nil => simp [group_insert, find_group]
  | cons e rest ih =>
    obtain ⟨k2, g⟩ := e
    simp only [group_insert, find_group]
    by_cases hk : k = k2
    · simp [hk, find_group]
    · simp [hk, find_group, ih]

theorem find_group_group_insert_ne [DecidableEq κ] {k k2 : κ} (hne : k2 ≠ k) (x : α)
    (gs : List (κ × List α)) :
    find_group k2 (group_insert k x gs) = find_group k2 gs := by
  induction gs with
  | nil => simp [group_insert, find_group, hne]
  | cons e rest ih =>
    obtain ⟨k3, g⟩ := e
    simp only [group_insert, find_group]
    by_cases hk : k = k3
    · subst hk; simp [find_group, hne]
    · by_cases hk2 : k2 = k3 <;> simp [hk, hk2, find_group, ih]

theorem group_by_loop_keys [DecidableEq κ] (f : α → κ) (l : List α)
    (gs : List (κ × List α)) :
    dict_keys (group_by_loop f l gs) =
      dict_keys gs ++ first_seen (l.map f) (dict_keys gs) := by
  induction l generalizing gs with
  | nil => simp [group_by_loop, first_seen]
  | cons x xs ih =>
    simp only [group_by_loop, List.map_cons, first_seen]
    rw [ih, dict_keys_group_insert]
    by_cases hmem : f x ∈ dict_keys gs
    · simp [hmem]
    · rw [if_neg hmem, if_neg hmem]
      have hcg : first_seen (xs.map f) (dict_keys gs ++ [f x]) =
          first_seen (xs.map f) (f x :: dict_keys gs) := by
        refine first_seen_congr _ (fun k => ?_)
        simp only [List.mem_append, List.mem_singleton, List.mem_cons]
        tauto
      rw [hcg, List.append_assoc]
      rfl

theorem group_by_loop_find [DecidableEq κ] (f : α → κ) (l : List α)
    (gs : List (κ × List α)) (k : κ) :
    find_group k (group_by_loop f l gs) =
      find_group k gs ++ l.filter (fun x => decide (f x = k)) := by
  induction l generalizing gs with
  | nil => simp [group_by_loop]
  | cons x xs ih =>
    simp only [group_by_loop, List.filter_cons]
    rw [ih]
    by_cases hk : f x = k
    · subst hk
      rw [find_group_group_insert_self]
      simp
    · rw [find_group_group_insert_ne (fun hc => hk hc.symm)]
      simp [hk]

theorem group_by_loop_nodup [DecidableEq κ] (f : α → κ) (l : List α) :
    (dict_keys (group_by_loop f l [])).Nodup := by
  rw [group_by_loop_keys]
  simpa [dict_keys] using first_seen_nodup (l.map f) []

theorem map_snd_eq_keys_find [DecidableEq κ] (gs : List (κ × List α))
    (h : (dict_keys gs).Nodup) :
    gs.map Prod.snd = (dict_keys gs).map (fun k => find_group k gs) := by
  induction gs with
  | nil => rfl
  | cons e rest ih =>
    obtain ⟨k, g⟩ := e
    simp only [dict_keys, List.map_cons] at h ⊢
    have h2 := List.nodup_cons.mp h
    simp only [find_group, if_pos rfl, List.map_cons]
    congr 1
    · rw [ih h2.2]
      refine List.map_congr_left (fun k2 hk2 => ?_)
      have hne : k2 ≠ k := fun hc => h2.1 (hc ▸ hk2)
      rw [if_neg hne]

theorem ss_group_by_characterization [DecidableEq κ] (f : α → κ) (l : List α) :
    ss_group_by f l =
      (first_seen (l.map f) []).map (fun k => l.filter (fun x => decide (f x = k))) := by
  unfold ss_group_by
  rw [map_snd_eq_keys_find _ (group_by_loop_nodup f l), group_by_loop_keys]
  simp only [dict_keys, List.map_nil, List.nil_append]
  refine List.map_congr_left (fun k _ => ?_)
  rw [group_by_loop_find]
  simp [find_group]

theorem group_by_run_split [DecidableEq κ] (f : α → κ) (l : List α)
    (gs : List (κ × List α)) :
    group_by_run f l gs =
      l.map GEvent.pull ++ (group_by_loop f l gs).map (fun g => GEvent.yieldB g.2) := by
  induction l generalizing gs with
  | nil => rfl
  | cons x xs ih =>
    simp only [group_by_run, group_by_loop, List.map_cons, List.cons_append]
    rw [ih]

theorem distinct_with_variants [DecidableEq κ] (f : α → κ) (l : List α) (seen : List κ) :
    sa_distinct_with f l seen = ss_distinct_with f l seen ∧
      as_distinct_with f l seen = ss_distinct_with f l seen ∧
      aa_distinct_with f l seen = ss_distinct_with f l seen := by
  induction l generalizing seen with
  | nil => exact ⟨rfl, rfl, rfl⟩
  | cons x xs ih =>
    simp only [ss_distinct_with, sa_distinct_with, as_distinct_with, aa_distinct_with]
    by_cases h : f x ∈ seen <;>
      simp [h, (ih seen).1, (ih seen).2.1, (ih seen).2.2,
        (ih (f x :: seen)).1, (ih (f x :: seen)).2.1, (ih (f x :: seen)).2.2]

theorem ss_skip_while_eq_drop (p : α → Bool) (l : List α) :
    ss_skip_while p l = l.drop ((l.takeWhile p).length) := by
  induction l with
  | nil => rfl
  | cons x xs ih =>
    simp only [ss_skip_while, List.takeWhile_cons]
    by_cases h : p x
    · simp [h, ih]
    · simp [h]

theorem takeWhile_all_sat (p : α → Bool) (l : List α) :
    (l.takeWhile p).all p = true := by
  induction l with
  | nil => rfl
  | cons x xs ih =>
    simp only [List.takeWhile_cons]
    by_cases h : p x <;> simp [h, ih]

theorem ss_skip_while_head_fails (p : α → Bool) (l : List α) :
    Option.all (fun y => !p y) (ss_skip_while p l).head? = true := by
  induction l with
  | nil => rfl
  | cons x xs ih =>
    simp only [ss_skip_while]
    by_cases h : p x <;> simp [h, ih]

theorem skip_while_evals_eq_take (p : α → Bool) (l : List α) :
    skip_while_evals p l = l.take ((l.takeWhile p).length + 1) := by
  induction l with
  | nil => rfl
  | cons x xs ih =>
    simp only [skip_while_evals, List.takeWhile_cons]
    by_cases h : p x
    · simp [h, ih]
    · simp [h]

theorem min_len_le (cs : List (List α)) (c : List α) (h : c ∈ cs) :
    min_len cs ≤ c.length := by
  induction cs with
  | nil => cases h
  | cons c2 rest ih =>
    match rest, h with
    | [], h =>
      rcases List.mem_singleton.mp h with rfl
      exact le_refl _
    | c3 :: rest2, h =>
      rcases List.mem_cons.mp h with rfl | h2
      · exact min_le_left _ _
      · exact le_trans (min_le_right _ _) (ih h2)

theorem min_len_attained (cs : List (List α)) (h : cs ≠ []) :
    ∃ c ∈ cs, c.length = min_len cs := by
  induction cs with
  | nil => exact absurd rfl h
  | cons c2 rest ih =>
    match rest with
    | [] => exact ⟨c2, List.mem_singleton.mpr rfl, rfl⟩
    | c3 :: rest2 =>
      obtain ⟨c, hc, hlen⟩ := ih (by simp)
      have hml : min_len (c2 :: c3 :: rest2) = min c2.length (min_len (c3 :: rest2)) := rfl
      rcases le_total c2.length (min_len (c3 :: rest2)) with hle | hle
      · exact ⟨c2, List.mem_cons_self _ _, by rw [hml, min_eq_left hle]⟩
      · exact ⟨c, List.mem_cons_of_mem _ hc, by rw [hml, min_eq_right hle, hlen]⟩

theorem min_len_zero_exists_nil (cs : List (List α)) (h : cs ≠ [])
    (h0 : min_len cs = 0) : ∃ c ∈ cs, c = [] := by
  obtain ⟨c, hc, hlen⟩ := min_len_attained cs h
  exact ⟨c, hc, List.length_eq_zero.mp (hlen.trans h0)⟩

theorem min_len_map_tail (cs : List (List α)) (hne : ∀ c ∈ cs, c ≠ []) :
    min_len (cs.map List.tail) = min_len cs - 1 := by
  induction cs with
  | nil => rfl
  | cons c2 rest ih =>
    match rest with
    | [] =>
      simp only [List.map_cons, List.map_nil]
      show c2.tail.length = c2.length - 1
      exact List.length_tail c2
    | c3 :: rest2 =>
      have hml : min_len (c2 :: c3 :: rest2) = min c2.length (min_len (c3 :: rest2)) := rfl
      have hml2 : min_len (c2.tail :: (c3 :: rest2).map List.tail) =
          min c2.tail.length (min_len ((c3 :: rest2).map List.tail)) := by
        simp only [List.map_cons]; rfl
      simp only [List.map_cons] at *
      rw [hml2, ih (fun c hc => hne c (List.mem_cons_of_mem _ hc)), List.length_tail, hml]
      have h1 : 1 ≤ c2.length :=
        List.length_pos.mpr (hne c2 (List.mem_cons_self _ _))
      have h2 : 1 ≤ min_len (c3 :: rest2) := by
        obtain ⟨c, hc, hlen⟩ := min_len_attained (c3 :: rest2) (by simp)
        rw [← hlen]
        exact List.length_pos.mpr (hne c (List.mem_cons_of_mem _ hc))
      omega

theorem zip_round_all_nonempty [Inhabited α] (cs : List (List α))
    (h : ∀ c ∈ cs, c ≠ []) :
    zip_round cs = (some (cs.map List.headI), cs.map List.tail) := by
  induction cs with
  | nil => rfl
  | cons c rest ih =>
    match c with
    | [] => exact absurd rfl (h [] (List.mem_cons_self _ _))
    | x :: cx =>
      simp only [zip_round, List.map_cons]
      rw [ih (fun c2 hc2 => h c2 (List.mem_cons_of_mem _ hc2))]
      rfl

theorem zip_round_fail (cs : List (List α)) (h : ∃ c ∈ cs, c = []) :
    (zip_round cs).1 = none ∧
    (zip_round cs).2 =
      (cs.take (cs.findIdx (fun c => c.isEmpty))).map List.tail ++
        cs.drop (cs.findIdx (fun c => c.isEmpty)) := by
  induction cs with
  | nil => obtain ⟨c, hc, _⟩ := h; cases hc
  | cons c rest ih =>
    match c with
    | [] =>
      refine ⟨rfl, ?_⟩
      have hidx : (List.findIdx (fun c => c.isEmpty) ([] :: rest)) = 0 := by
        rw [List.findIdx_cons]; rfl
      rw [hidx]
      rfl
    | x :: cx =>
      have hrest : ∃ c2 ∈ rest, c2 = [] := by
        obtain ⟨c2, hc2, hnil⟩ := h
        rcases List.mem_cons.mp hc2 with rfl | hc2
        · cases hnil
        · exact ⟨c2, hc2, hnil⟩
      obtain ⟨ih1, ih2⟩ := ih hrest
      have hidx : (List.findIdx (fun c => c.isEmpty) ((x :: cx) :: rest)) =
          (List.findIdx (fun c => c.isEmpty) rest) + 1 := by
        rw [List.findIdx_cons]; rfl
      refine ⟨?_, ?_⟩
      · simp only [zip_round, ih1]
        rfl
      · simp only [zip_round, ih2, hidx, List.take_succ_cons, List.map_cons,
          List.drop_succ_cons, List.cons_append]
        rfl

theorem findIdx_map_tail (m : Nat) (cs : List (List α)) (hne : ∀ c ∈ cs, c ≠ []) :
    (cs.map List.tail).findIdx (fun c => c.length == m) =
      cs.findIdx (fun c => c.length == m + 1) := by
  induction cs with
  | nil => rfl
  | cons c rest ih =>
    have h1 : 1 ≤ c.length :=
      List.length_pos.mpr (hne c (List.mem_cons_self _ _))
    have heq : (c.tail.length == m) = (c.length == m + 1) := by
      rw [List.length_tail]
      by_cases h : c.length = m + 1
      · have h2 : c.length - 1 = m := by omega
        simp [h, h2]
      · have h2 : c.length - 1 ≠ m := by omega
        simp [h, h2]
    simp only [List.map_cons, List.findIdx_cons, heq]
    cases hb : (c.length == m + 1) with
    | true => rfl
    | false =>
      simp only [cond_false]
      rw [ih (fun c2 hc2 => hne c2 (List.mem_cons_of_mem _ hc2))]

theorem zip_run_spec [Inhabited α] :
    ∀ (m : Nat) (cs : List (List α)), cs ≠ [] → min_len cs = m →
      ((zip_run (m + 1) cs).1.length = m ∧
        ∀ j, j < m →
          (zip_run (m + 1) cs).1.get? j = some (cs.map (fun c => (c.drop j).headI))) ∧
      (zip_run (m + 1) cs).2 =
        (cs.take (cs.findIdx (fun c => c.length == m))).map (fun c => c.drop (m + 1)) ++
          (cs.drop (cs.findIdx (fun c => c.length == m))).map (fun c => c.drop m) := by
  intro m
  induction m with
  | zero =>
    intro cs hne h0
    have hex : ∃ c ∈ cs, c = [] := min_len_zero_exists_nil cs hne h0
    obtain ⟨hr1, hr2⟩ := zip_round_fail cs hex
    have hrun : zip_run 1 cs = ([], (zip_round cs).2) := by
      simp only [zip_run]
      rw [hr1]
    rw [hrun]
    refine ⟨⟨rfl, fun j hj => absurd hj (Nat.not_lt_zero j)⟩, ?_⟩
    rw [hr2]
    have hp : (fun (c : List α) => c.isEmpty) = (fun c => c.length == 0) := by
      funext c; cases c <;> rfl
    rw [hp]
    congr 1
    · refine List.map_congr_left (fun c _ => ?_)
      rw [List.drop_one]
    · simp
  | succ m ih =>
    intro cs hne hmin
    have hnonempty : ∀ c ∈ cs, c ≠ [] := by
      intro c hc hcnil
      have hle := min_len_le cs c hc
      rw [hcnil, hmin] at hle
      exact absurd hle (by simp)
    have hround := zip_round_all_nonempty cs hnonempty
    have htail_ne : cs.map List.tail ≠ [] := by
      intro hc
      exact hne (List.map_eq_nil_iff.mp hc)
    have htail_min : min_len (cs.map List.tail) = m := by
      rw [min_len_map_tail cs hnonempty, hmin]
      omega
    obtain ⟨⟨ihlen, ihget⟩, ihrest⟩ := ih (cs.map List.tail) htail_ne htail_min
    have hrun : zip_run (m + 1 + 1) cs =
        (cs.map List.headI :: (zip_run (m + 1) (cs.map List.tail)).1,
          (zip_run (m + 1) (cs.map List.tail)).2) := by
      simp only [zip_run, hround]
    rw [hrun]
    refine ⟨⟨by simp [ihlen], fun j hj => ?_⟩, ?_⟩
    · match j with
      | 0 =>
        show some (cs.map List.headI) = some (cs.map (fun c => (c.drop 0).headI))
        rfl
      | j + 1 =>
        show (zip_run (m + 1) (cs.map List.tail)).1.get? j = _
        rw [ihget j (Nat.lt_of_succ_lt_succ hj), List.map_map]
        congr 1
        refine List.map_congr_left (fun c _ => ?_)
        show ((c.tail.drop j).headI) = ((c.drop (j + 1)).headI)
        rw [← List.drop_one, List.drop_drop]
        congr 2
        omega
    · rw [ihrest, findIdx_map_tail m cs hnonempty, ← List.map_take, ← List.map_drop,
        List.map_map, List.map_map]
      congr 1
      · refine List.map_congr_left (fun c _ => ?_)
        show c.tail.drop (m + 1) = c.drop (m + 1 + 1)
        rw [← List.drop_one, List.drop_drop]
        congr 1
        omega
      · refine List.map_congr_left (fun c _ => ?_)
        show c.tail.drop m = c.drop (m + 1)
        rw [← List.drop_one, List.drop_drop]
        congr 1
        omega

theorem foldl_append_singleton (l : List α) :
    ∀ acc, l.foldl (fun a x => a ++ [x]) acc = acc ++ l := by
  induction l with
  | nil => intro acc; simp
  | cons x xs ih => intro acc; simp [List.foldl_cons, ih]

theorem drain_eq (l : List α) : drain l = (l, []) := by
  unfold drain
  rw [foldl_append_singleton]
  simp

theorem insert_desc_total (c : α → α → Option Bool) (x : α) (acc : List α)
    (h : ∀ y ∈ acc, (c x y).isSome) :
    ∃ r, insert_desc c x acc = Except.ok r ∧ r.Perm (x :: acc) := by
  induction acc with
  | nil => exact ⟨[x], rfl, List.Perm.refl _⟩
  | cons y ys ih =>
    have hy : (c x y).isSome := h y (List.mem_cons_self _ _)
    obtain ⟨b, hb⟩ := Option.isSome_iff_exists.mp hy
    match b, hb with
    | true, hb =>
      obtain ⟨r, hr, hperm⟩ := ih (fun y2 hy2 => h y2 (List.mem_cons_of_mem _ hy2))
      refine ⟨y :: r, ?_, ?_⟩
      · simp only [insert_desc, hb, hr]
        rfl
      · exact (hperm.cons y).trans (List.Perm.swap x y ys)
    | false, hb =>
      refine ⟨x :: y :: ys, ?_, List.Perm.refl _⟩
      simp only [insert_desc, hb]

theorem sort_phase_total (c : α → α → Option Bool) (l : List α) :
    ∀ acc, (∀ x ∈ l, ∀ y ∈ acc, (c x y).isSome) →
      (∀ x ∈ l, ∀ y ∈ l, (c x y).isSome) →
      ∃ r, sort_phase c l acc = Except.ok r ∧ r.Perm (l ++ acc) := by
  induction l with
  | nil =>
    intro acc _ _
    exact ⟨acc.reverse, rfl, by simp⟩
  | cons x xs ih =>
    intro acc hacc hl
    obtain ⟨r1, hr1, hp1⟩ :=
      insert_desc_total c x acc (hacc x (List.mem_cons_self _ _))
    have hacc2 : ∀ x2 ∈ xs, ∀ y ∈ r1, (c x2 y).isSome := by
      intro x2 hx2 y hy
      have hy2 : y ∈ x :: acc := hp1.subset hy
      rcases List.mem_cons.mp hy2 with rfl | hy2
      · exact hl x2 (List.mem_cons_of_mem _ hx2) y (List.mem_cons_self _ _)
      · exact hacc x2 (List.mem_cons_of_mem _ hx2) y hy2
    have hl2 : ∀ x2 ∈ xs, ∀ y ∈ xs, (c x2 y).isSome := fun x2 hx2 y hy =>
      hl x2 (List.mem_cons_of_mem _ hx2) y (List.mem_cons_of_mem _ hy)
    obtain ⟨r, hr, hp⟩ := ih r1 hacc2 hl2
    refine ⟨r, ?_, ?_⟩
    · simp only [sort_phase, hr1]
      exact hr
    · refine hp.trans ?_
      refine ((hp1.append_left xs).trans ?_)
      exact (List.perm_middle).trans (List.Perm.refl _)

theorem insert_desc_nat (x : Nat) (acc : List Nat)
    (hs : acc.Sorted (fun a b => b ≤ a)) :
    ∃ r, insert_desc nat_cmp x acc = Except.ok r ∧
      r.Sorted (fun a b => b ≤ a) ∧ r.Perm (x :: acc) := by
  induction acc with
  | nil => exact ⟨[x], rfl, List.sorted_singleton x, List.Perm.refl _⟩
  | cons y ys ih =>
    have hys := (List.sorted_cons.mp hs).2
    have hbound := (List.sorted_cons.mp hs).1
    by_cases hxy : x < y
    · obtain ⟨r, hr, hrs, hperm⟩ := ih hys
      refine ⟨y :: r, ?_, ?_, ?_⟩
      · show insert_desc nat_cmp x (y :: ys) = Except.ok (y :: r)
        simp only [insert_desc, nat_cmp, decide_eq_true hxy, hr]
        rfl
      · refine List.sorted_cons.mpr ⟨fun b hb => ?_, hrs⟩
        rcases List.mem_cons.mp (hperm.subset hb) with rfl | hb2
        · exact le_of_lt hxy
        · exact hbound b hb2
      · exact (hperm.cons y).trans (List.Perm.swap x y ys)
    · refine ⟨x :: y :: ys, ?_, ?_, List.Perm.refl _⟩
      · show insert_desc nat_cmp x (y :: ys) = Except.ok (x :: y :: ys)
        simp only [insert_desc, nat_cmp, decide_eq_false hxy]
      · refine List.sorted_cons.mpr ⟨fun b hb => ?_, hs⟩
        rcases List.mem_cons.mp hb with rfl | hb2
        · exact le_of_not_lt hxy
        · exact le_trans (hbound b hb2) (le_of_not_lt hxy)

theorem sort_phase_nat (l : List Nat) :
    ∀ acc, acc.Sorted (fun a b => b ≤ a) →
      ∃ r, sort_phase nat_cmp l acc = Except.ok r ∧
        r.Sorted (· ≤ ·) ∧ r.Perm (l ++ acc) := by
  induction l with
  | nil =>
    intro acc hs
    refine ⟨acc.reverse, rfl, ?_, by simp⟩
    exact List.pairwise_reverse.mpr hs
  | cons x xs ih =>
    intro acc hs
    obtain ⟨r1, hr1, hr1s, hp1⟩ := insert_desc_nat x acc hs
    obtain ⟨r, hr, hrs, hp⟩ := ih r1 hr1s
    refine ⟨r, ?_, hrs, ?_⟩
    · simp only [sort_phase, hr1]
      exact hr
    · exact hp.trans ((hp1.append_left xs).trans List.perm_middle)

theorem s_take_eq_take (l : List α) (n : Nat) : s_take l n = l.take n := by
  induction l generalizing n with
  | nil => cases n <;> rfl
  | cons x xs ih =>
    cases n with
    | zero => rfl
    | succ n => simp [s_take, List.take_succ_cons, ih]

theorem s_skip_eq_drop (l : List α) (n : Nat) : s_skip l n = l.drop n := by
  induction l generalizing n with
  | nil => cases n <;> rfl
  | cons x xs ih =>
    cases n with
    | zero => rfl
    | succ n => simp [s_skip, List.drop_succ_cons, ih]

/-! ## Claim theorems -/

/-- C1: for every operator taking a user function (map, filter,
filter_false, inspect, for_each, skip_while, take_while, group_by,
distinct_with), the four implementations selected by the dispatch table
{sync fn, suspending fn} × {sync source, suspending source} yield
element-for-element identical output on equivalent data (here: on the same
underlying element sequence). -/
theorem C1_four_way_dispatch_equivalence (f : α → β) (p : α → Bool)
    [DecidableEq κ] (g : α → κ) (l : List α) :
    (sa_map f l = ss_map f l ∧ as_map f l = ss_map f l ∧ aa_map f l = ss_map f l) ∧
    (sa_filter p l = ss_filter p l ∧ as_filter p l = ss_filter p l ∧
      aa_filter p l = ss_filter p l) ∧
    (sa_filter_false p l = ss_filter_false p l ∧ as_filter_false p l = ss_filter_false p l ∧
      aa_filter_false p l = ss_filter_false p l) ∧
    (sa_inspect l = ss_inspect l ∧ as_inspect l = ss_inspect l ∧
      aa_inspect l = ss_inspect l) ∧
    (sa_for_each l = ss_for_each l ∧ as_for_each l = ss_for_each l ∧
      aa_for_each l = ss_for_each l) ∧
    (sa_skip_while p l = ss_skip_while p l ∧ as_skip_while p l = ss_skip_while p l ∧
      aa_skip_while p l = ss_skip_while p l) ∧
    (sa_take_while p l = ss_take_while p l ∧ as_take_while p l = ss_take_while p l ∧
      aa_take_while p l = ss_take_while p l) ∧
    (sa_group_by g l = ss_group_by g l ∧ as_group_by g l = ss_group_by g l ∧
      aa_group_by g l = ss_group_by g l) ∧
    (sa_distinct_with g l [] = ss_distinct_with g l [] ∧
      as_distinct_with g l [] = ss_distinct_with g l [] ∧
      aa_distinct_with g l [] = ss_distinct_with g l []) :=
  ⟨map_variants f l, filter_variants p l, filter_false_variants p l, inspect_variants l,
    for_each_variants l, skip_while_variants p l, take_while_variants p l,
    ⟨rfl, rfl, rfl⟩, distinct_with_variants g l []⟩

/-- C2 counterexample: a zero count (which is non-positive) passed to take
or skip does not raise `InvalidArgument`: take(s, 0) succeeds with no
elements and skip(s, 0) succeeds forwarding the whole source. -/
theorem C2_counterexample :
    take_checked ([1, 2] : List Nat) 0 = Except.ok [] ∧
    skip_checked ([1, 2] : List Nat) 0 = Except.ok [1, 2] :=
  ⟨rfl, rfl⟩

/-- C2 (amended): pool and step_by raise `InvalidArgument` for every
non-positive size/step; skip and take raise it exactly for negative counts
(zero is accepted, spec 4.3); in every failing case the outcome is
independent of the source, i.e. the error is raised before any element is
pulled. -/
theorem C2_invalid_argument_checks (l l2 : List α) (size step n m : Int)
    (hsize : size ≤ 0) (hstep : step ≤ 0) (hn : n < 0) (hm : 0 ≤ m) :
    (pool_checked l size = Except.error PsError.invalidArgument ∧
      pool_checked l size = pool_checked l2 size) ∧
    (step_by_checked l step = Except.error PsError.invalidArgument ∧
      step_by_checked l step = step_by_checked l2 step) ∧
    (skip_checked l n = Except.error PsError.invalidArgument ∧
      skip_checked l n = skip_checked l2 n) ∧
    (take_checked l n = Except.error PsError.invalidArgument ∧
      take_checked l n = take_checked l2 n) ∧
    skip_checked l m = Except.ok (s_skip l m.toNat) ∧
    take_checked l m = Except.ok (s_take l m.toNat) := by
  refine ⟨⟨?_, ?_⟩, ⟨?_, ?_⟩, ⟨?_, ?_⟩, ⟨?_, ?_⟩, ?_, ?_⟩ <;>
    simp [pool_checked, step_by_checked, skip_checked, take_checked,
      hsize, hstep, hn, not_lt.mpr hm]

/-- C2 witness: the amended checks at size 0, step -1, count -1 and 0. -/
theorem C2_invalid_argument_checks_witness :
    pool_checked ([1] : List Nat) 0 = Except.error PsError.invalidArgument ∧
    take_checked ([1] : List Nat) (-1) = Except.error PsError.invalidArgument :=
  ⟨(C2_invalid_argument_checks [1] [2] 0 (-1) (-1) 0
      (by decide) (by decide) (by decide) (by decide)).1.1,
    (C2_invalid_argument_checks [1] [2] 0 (-1) (-1) 0
      (by decide) (by decide) (by decide) (by decide)).2.2.2.1.1⟩

/-- C3: a value with neither pull capability fails coercion with the
TypeClassification error (the code's bare `TypeError`), raised by `coerce`
itself, and the shape-only dispatcher propagates it to the operator
invocation. -/
theorem C3_coercion_failure (v : PyObj)
    (h1 : v.asyncIterator = false) (h2 : v.asyncIterable = false)
    (h3 : v.iterator = false) (h4 : v.iterable = false) :
    coerce v = Except.error PsError.typeClassification ∧
    factory_inner v = Except.error PsError.typeClassification := by
  have hc : coerce v = Except.error PsError.typeClassification := by
    simp [coerce, h1, h2, h3, h4]
  refine ⟨hc, ?_⟩
  simp only [factory_inner, hc]
  rfl

/-- C3 witness: the four-way incapable value. -/
theorem C3_coercion_failure_witness :
    coerce ⟨false, false, false, false⟩ = Except.error PsError.typeClassification ∧
    factory_inner ⟨false, false, false, false⟩ =
      Except.error PsError.typeClassification :=
  C3_coercion_failure ⟨false, false, false, false⟩ rfl rfl rfl rfl

/-- C4 counterexample: `group_by` takes a user function, yet invoking it on
a value with neither pull capability succeeds at dispatch/invocation time —
`higher_order_factory` performs no coercion and `ss_group_by` is a generator
function, so a generator is created and nothing is raised; the
TypeClassification failure surfaces only when the first output element is
demanded. -/
theorem C4_counterexample :
    group_by_invoke false ⟨false, false, false, false⟩ = Except.ok () ∧
    ss_group_by_first_demand ⟨false, false, false, false⟩ =
      Except.error PsError.typeClassification :=
  ⟨rfl, rfl⟩

/-- C4 (amended): `higher_order_factory` does not coerce the source; it only
classifies it via `is_async_stream`, so a value with neither capability is
silently classified synchronous and routed to the sync-sync implementation.
Whether the failure appears at invocation depends on that implementation:
eager builtins (map's `builtins.map`) raise immediately, generator functions
(group_by's) defer the error to the first demanded element. -/
theorem C4_dispatch_does_not_coerce (v : PyObj)
    (h1 : v.asyncIterator = false) (h2 : v.asyncIterable = false)
    (h3 : v.iterator = false) (h4 : v.iterable = false) :
    higher_order_inner false v = Impl4.ss ∧
    map_invoke false v = Except.error PsError.typeClassification ∧
    group_by_invoke false v = Except.ok () ∧
    ss_group_by_first_demand v = Except.error PsError.typeClassification := by
  have hho : higher_order_inner false v = Impl4.ss := by
    simp [higher_order_inner, is_async_stream, h1, h2]
  refine ⟨hho, ?_, rfl, ?_⟩
  · simp [map_invoke, hho, ss_map_invoke, h3, h4]
  · simp [ss_group_by_first_demand, h3, h4]

/-- C4 witness: the amended statement at the four-way incapable value. -/
theorem C4_dispatch_does_not_coerce_witness :
    higher_order_inner false ⟨false, false, false, false⟩ = Impl4.ss ∧
    map_invoke false ⟨false, false, false, false⟩ =
      Except.error PsError.typeClassification :=
  ⟨(C4_dispatch_does_not_coerce ⟨false, false, false, false⟩ rfl rfl rfl rfl).1,
    (C4_dispatch_does_not_coerce ⟨false, false, false, false⟩ rfl rfl rfl rfl).2.1⟩

/-- C5 counterexample: under `cex_cmp` the elements 0 and 2 of [0, 1, 2] are
not mutually comparable, yet sort succeeds: on this already-ascending input
the sort phase compares only adjacent elements (exactly as CPython's
`sorted` does on a sorted list — its run detection compares a[1] with a[0]
and a[2] with a[1] only) and never compares 0 with 2. -/
theorem C5_counterexample :
    ¬ mutually_comparable cex_cmp [0, 1, 2] ∧
    (a_sort cex_cmp [0, 1, 2]).2 = Except.ok [0, 1, 2] := by
  constructor
  · intro h
    have h2 := h 0 (by simp) 2 (by simp)
    simp [cex_cmp] at h2
  · rfl

/-- C5 (amended): sort drains its source fully before any comparison — the
post-drain cursor is empty and the drained list is the whole source,
whatever the comparison outcome; a mutually comparable source never raises
and its output is a permutation of the input; under the natural Nat order
the output is additionally sorted ascending.  A ComparisonError can thus
only come from an actually-compared incomparable pair; a source merely
containing an incomparable pair may still sort successfully. -/
theorem C5_sort_drains_then_sorts :
    (∀ (α : Type) (c : α → α → Option Bool) (l : List α),
      (a_sort c l).1 = [] ∧ (drain l).1 = l) ∧
    (∀ (α : Type) (c : α → α → Option Bool) (l : List α),
      mutually_comparable c l →
        ∃ r, (a_sort c l).2 = Except.ok r ∧ r.Perm l) ∧
    (∀ l : List Nat,
      ∃ r, (a_sort nat_cmp l).2 = Except.ok r ∧ r.Sorted (· ≤ ·) ∧ r.Perm l) := by
  refine ⟨fun α c l => ⟨?_, ?_⟩, fun α c l h => ?_, fun l => ?_⟩
  · simp [a_sort, drain_eq]
  · simp [drain_eq]
  · obtain ⟨r, hr, hp⟩ := sort_phase_total c l []
      (fun x _ y hy => absurd hy (List.not_mem_nil y)) h
    refine ⟨r, ?_, by simpa using hp⟩
    simp [a_sort, drain_eq, hr]
  · obtain ⟨r, hr, hs, hp⟩ := sort_phase_nat l [] List.sorted_nil
    refine ⟨r, ?_, hs, by simpa using hp⟩
    simp [a_sort, drain_eq, hr]

/-- C5 witness: concrete instances of the amended statement. -/
theorem C5_sort_drains_then_sorts_witness :
    (a_sort nat_cmp [3, 1, 2]).1 = [] ∧
    (∃ r, (a_sort nat_cmp [1, 2]).2 = Except.ok r ∧ r.Perm [1, 2]) ∧
    (∃ r, (a_sort nat_cmp [3, 1, 2]).2 = Except.ok r ∧
      r.Sorted (· ≤ ·) ∧ r.Perm [3, 1, 2]) :=
  ⟨(C5_sort_drains_then_sorts.1 Nat nat_cmp [3, 1, 2]).1,
    C5_sort_drains_then_sorts.2.1 Nat nat_cmp [1, 2]
      (fun x _ y _ => by simp [nat_cmp]),
    C5_sort_drains_then_sorts.2.2 [3, 1, 2]⟩

/-- C6: group_by fully drains the source before yielding anything (its
event trace is all pulls, in source order, followed by all bucket yields);
it yields exactly one bucket per distinct key of the source, in
first-seen-key order, and each bucket is the subsequence of source elements
with that key (source order preserved); concretely,
group_by(x % 2, [1,2,3,4]) yields [[1,3],[2,4]]. -/
theorem C6_group_by_buckets [DecidableEq κ] (f : α → κ) (l : List α) :
    ss_group_by f l =
      (first_seen (l.map f) []).map (fun k => l.filter (fun x => decide (f x = k))) ∧
    (first_seen (l.map f) []).Nodup ∧
    (∀ k, k ∈ first_seen (l.map f) [] ↔ k ∈ l.map f) ∧
    group_by_run f l [] = l.map GEvent.pull ++ (ss_group_by f l).map GEvent.yieldB ∧
    ss_group_by (fun x : Nat => x % 2) [1, 2, 3, 4] = [[1, 3], [2, 4]] := by
  refine ⟨ss_group_by_characterization f l, first_seen_nodup _ _, fun k => ?_, ?_, by decide⟩
  · rw [first_seen_mem]
    simp
  · unfold ss_group_by
    rw [group_by_run_split, List.map_map]
    rfl

/-- C7: zip yields exactly min(source lengths) tuples — `min_len` is a
lower bound of the lengths and is attained — and the j-th tuple holds, in
source order, the j-th element of each source; with sources of lengths 3
and 5 it yields exactly 3 tuples. -/
theorem C7_zip_shortest_wins [Inhabited α] (cs : List (List α)) (h : cs ≠ []) :
    (zip_out cs).length = min_len cs ∧
    (∀ j, j < min_len cs →
      (zip_out cs).get? j = some (cs.map (fun c => (c.drop j).headI))) ∧
    (∀ c ∈ cs, min_len cs ≤ c.length) ∧
    (∃ c ∈ cs, c.length = min_len cs) ∧
    zip_out [[1, 2, 3], [10, 20, 30, 40, 50]] = [[1, 10], [2, 20], [3, 30]] := by
  obtain ⟨⟨hlen, hget⟩, _⟩ := zip_run_spec (min_len cs) cs h rfl
  exact ⟨hlen, hget, fun c hc => min_len_le cs c hc, min_len_attained cs h, by decide⟩

/-- C7 witness: the two-source instance with lengths 3 and 5. -/
theorem C7_zip_shortest_wins_witness :
    (zip_out ([[1, 2, 3], [10, 20, 30, 40, 50]] : List (List Nat))).length =
      min_len [[1, 2, 3], [10, 20, 30, 40, 50]] :=
  (C7_zip_shortest_wins [[1, 2, 3], [10, 20, 30, 40, 50]] (by decide)).1

/-- C10: when zip stops after m = min(source lengths) tuples, the sources
before the first one of minimal length (index k = findIdx(len = m)) have
each lost m + 1 elements — one more than the m that appear in tuples, the
extra one silently discarded — while sources from k on have lost exactly m;
tuples only contain elements at indices below m.  Concretely, on
[[1,2],[],[5,6]] the element 1 is consumed from the first source and
appears in no tuple, while the third source is untouched. -/
theorem C10_zip_discards_partial_round [Inhabited α] (cs : List (List α)) (h : cs ≠ []) :
    zip_rest cs =
      (cs.take (cs.findIdx (fun c => c.length == min_len cs))).map
        (fun c => c.drop (min_len cs + 1)) ++
      (cs.drop (cs.findIdx (fun c => c.length == min_len cs))).map
        (fun c => c.drop (min_len cs)) ∧
    (zip_out cs).length = min_len cs ∧
    (∀ j, j < min_len cs →
      (zip_out cs).get? j = some (cs.map (fun c => (c.drop j).headI))) ∧
    zip_rest [[1, 2], [], [5, 6]] = [[2], [], [5, 6]] := by
  obtain ⟨⟨hlen, hget⟩, hrest⟩ := zip_run_spec (min_len cs) cs h rfl
  exact ⟨hrest, hlen, hget, by decide⟩

/-- C10 witness: the partial round on [[1,2],[],[5,6]]. -/
theorem C10_zip_discards_partial_round_witness :
    zip_rest ([[1, 2], [], [5, 6]] : List (List Nat)) = [[2], [], [5, 6]] :=
  (C10_zip_discards_partial_round [[1, 2], [], [5, 6]] (by decide)).2.2.2

/-- C8: skip_while discards exactly the maximal leading run of elements
satisfying the predicate (every element of that run satisfies it), then
forwards the remainder unchanged — whose head, when it exists, is the first
failing element — with no further filtering; the predicate is evaluated on
exactly that run plus the first failing element and on nothing afterwards;
and all four dispatch variants agree. -/
theorem C8_skip_while_single_transition (p : α → Bool) (l : List α) :
    ss_skip_while p l = l.drop ((l.takeWhile p).length) ∧
    (l.takeWhile p).all p = true ∧
    Option.all (fun y => !p y) (ss_skip_while p l).head? = true ∧
    skip_while_evals p l = l.take ((l.takeWhile p).length + 1) ∧
    sa_skip_while p l = ss_skip_while p l ∧
    as_skip_while p l = ss_skip_while p l ∧
    aa_skip_while p l = ss_skip_while p l :=
  ⟨ss_skip_while_eq_drop p l, takeWhile_all_sat p l, ss_skip_while_head_fails p l,
    skip_while_evals_eq_take p l, (skip_while_variants p l).1,
    (skip_while_variants p l).2.1, (skip_while_variants p l).2.2⟩

/-- C9: for every source and every count n ≥ 0, take(s, n) ++ skip(s, n) on
independent copies reproduces s exactly: take yields the n-element prefix
(hence at most n elements) and skip discards exactly min(n, |s|) leading
elements, forwarding the rest. -/
theorem C9_take_append_skip (l : List α) (n : Nat) :
    s_take l n ++ s_skip l n = l ∧
    s_take l n = l.take n ∧
    s_skip l n = l.drop n ∧
    (s_take l n).length ≤ n ∧
    l.length - (s_skip l n).length = min n l.length := by
  refine ⟨?_, s_take_eq_take l n, s_skip_eq_drop l n, ?_, ?_⟩
  · rw [s_take_eq_take, s_skip_eq_drop]
    exact List.take_append_drop n l
  · rw [s_take_eq_take, List.length_take]
    exact min_le_left _ _
  · rw [s_skip_eq_drop, List.length_drop]
    omega

end PStream
